import Mathlib

/-!
# paratest: a verification development

Shallow embedding of `main.go` (the test-sharding launcher) and proofs about
its partitioner `divideTests`, its listing parser `getTestList`, the filter
pattern and the exit-code aggregation of `runTestsInParallel`, and the
dispatch in `main`.

Conventions of the embedding.
* A Go `string` is a Lean `String` (valid UTF-8 text); a Go `[]string` is a
  `List String`; a Go `int` is an `Int`, turned into a `Nat` once a guard has
  made it positive. No arithmetic in `main.go` can overflow a 64-bit `int`.
* A `for` loop is a recursive function with a fuel argument equal to the
  number of iterations the loop header allows; the loop test itself is still
  evaluated on every iteration.
* A function that can fail to return (a runtime panic) returns an `Option`,
  `none` standing for the failure.
-/

namespace Paratest

/-! ## The partitioner (`divideTests`, main.go 64-100) -/

/-- Inner loop of `divideTests` (main.go 93-96):
`for j := 0; j < size && index < len(tests); j++ { groups[i][j] = tests[index]; index++ }`.
The state is the loop counter `j`, the shared cursor `index` and the group being
filled; the result is the filled group and the cursor. -/
def fillGroup (tests : List String) (size : Nat) :
    Nat → Nat → Nat → List String → List String × Nat
  | 0, _, index, g => (g, index)
  | fuel + 1, j, index, g =>
    if j < size ∧ index < tests.length then
      fillGroup tests size fuel (j + 1) (index + 1) (g.set j (tests.getD index ""))
    else
      (g, index)

/-- Outer loop of `divideTests` (main.go 86-97): `for i := 0; i < n; i++`.
Each iteration computes `size`, allocates `make([]string, size)` (a slice of
`size` empty strings), runs the inner loop and stores the group at `groups[i]`. -/
def divideLoop (tests : List String) (n groupSize remainder : Nat) :
    Nat → Nat → Nat → List (List String) → List (List String)
  | 0, _, _, groups => groups
  | fuel + 1, i, index, groups =>
    if i < n then
      let size := if i = n - 1 then groupSize + remainder else groupSize
      let r := fillGroup tests size size 0 index (List.replicate size "")
      divideLoop tests n groupSize remainder fuel (i + 1) r.2 (groups.set i r.1)
    else
      groups

/-- The function `divideTests(tests []string, n int) [][]string` (main.go 65-100).

On the empty-list path (main.go 69-75) `make([][]string, n)` is reached with the
requested `n`, which nothing has bounded: `makeLimit` is the largest length for
which that allocation succeeds (a limit of the Go runtime and of the platform),
and for a larger `n` the call does not return (`makeslice: len out of range`),
which is the result `none`. On the other path `n` has been clamped, and every
length given to `make` (main.go 83 and 92) is at most `len(tests)`, the length
of a slice that is already allocated; those allocations succeed. -/
def divideTests (makeLimit : Nat) (tests : List String) (n : Int) :
    Option (List (List String)) :=
  let n : Nat := if n ≤ 0 then 1 else n.toNat
  if tests.length = 0 then
    if n ≤ makeLimit then some (List.replicate n []) else none
  else
    let n : Nat := if n > tests.length then tests.length else n
    let groupSize := tests.length / n
    let remainder := tests.length % n
    some (divideLoop tests n groupSize remainder n 0 0 (List.replicate n []))

/-! ## Specification-side descriptions of the plan -/

/-- The number of groups `divideTests` works with after its two guards on `n`
(main.go 66-68 and 76-78), for a non-empty test list of length `len`. -/
def clampedN (len : Nat) (n : Int) : Nat :=
  min (if n ≤ 0 then 1 else n.toNat) len

/-- The contiguous slice of `tests` that group `i` of an `n`-group plan holds:
`groupSize` items from offset `i * groupSize`, and for the last group
`groupSize + remainder` items. -/
def chunk (tests : List String) (n i : Nat) : List String :=
  let g := tests.length / n
  (tests.drop (i * g)).take (if i = n - 1 then g + tests.length % n else g)

/-- The plan made of the `clampedN` contiguous slices of a non-empty test list. -/
def slicePlan (tests : List String) (n : Int) : List (List String) :=
  (List.range (clampedN tests.length n)).map (chunk tests (clampedN tests.length n))

/-! ## The listing parser (`getTestList`, main.go 45-62) -/

/-- Go `unicode.IsSpace`: the Latin-1 spaces `\t \n \v \f \r`, space, U+0085, U+00A0,
and the other code points with the Unicode White_Space property. -/
def isSpace (c : Char) : Bool :=
  let v := c.toNat
  (0x09 ≤ v && v ≤ 0x0D) || v = 0x20 || v = 0x85 || v = 0xA0 || v = 0x1680 ||
    (0x2000 ≤ v && v ≤ 0x200A) || v = 0x2028 || v = 0x2029 || v = 0x202F ||
    v = 0x205F || v = 0x3000

/-- Go `strings.TrimSpace`: the string without its leading and trailing white space. -/
def TrimSpace (s : String) : String :=
  ⟨((s.data.dropWhile isSpace).reverse.dropWhile isSpace).reverse⟩

/-- Go `strings.HasPrefix(s, p)`. -/
def HasPrefix (s p : String) : Bool :=
  p.data.isPrefixOf s.data

/-- Number of bytes of the UTF-8 encoding of a run of characters (Go's `len`). -/
def byteLen (cs : List Char) : Nat :=
  (cs.map Char.utf8Size).sum

/-- Go `bufio.MaxScanTokenSize`, the buffer limit of a `bufio.Scanner`. -/
def MaxScanTokenSize : Nat := 64 * 1024

/-- The helper `dropCR` of `bufio.ScanLines`: drops one trailing `\r`. -/
def dropCR (cs : List Char) : List Char :=
  if cs.getLast? = some '\r' then cs.dropLast else cs

/-- The tokens that `scanner.Scan()` delivers for a `bufio.NewScanner` (default
`ScanLines` split) over a `strings.Reader`, with the final `scanner.Err()`:
every `\n` ends a line, a last non-empty unterminated line is delivered too,
each token has one trailing `\r` removed, and a line of `MaxScanTokenSize`
bytes or more stops the scan with `bufio.ErrTooLong` (`true`). The second
argument is the part of the current line read so far. -/
def scanLines : List Char → List Char → List String × Bool
  | [], cur =>
    if cur = [] then ([], false)
    else if MaxScanTokenSize ≤ byteLen cur then ([], true)
    else ([⟨dropCR cur⟩], false)
  | c :: cs, cur =>
    if c = '\n' then
      if MaxScanTokenSize ≤ byteLen cur then ([], true)
      else
        let r := scanLines cs []
        (⟨dropCR cur⟩ :: r.1, r.2)
    else
      scanLines cs (cur ++ [c])

/-- The body of `for scanner.Scan() { ... }` (main.go 54-59), run over the
delivered tokens; the state is the slice `tests`. -/
def scanLoop : List String → List String → List String
  | [], tests => tests
  | text :: rest, tests =>
    let line := TrimSpace text
    if line ≠ "" ∧ HasPrefix line "Test" = true then
      scanLoop rest (tests ++ [line])
    else
      scanLoop rest tests

/-- The errors `getTestList` can return. -/
inductive ListError
  | listFailed
  | tooLong
  deriving DecidableEq, Repr

/-- The function `getTestList(testBinary string) ([]string, error)` (main.go 45-62).
The subprocess call `cmd.Output()` is the parameter `cmdOutput`: `none` when it
returns an error, `some output` otherwise. The result is the pair `(tests, err)`. -/
def getTestList (cmdOutput : Option String) : List String × Option ListError :=
  match cmdOutput with
  | none => ([], some ListError.listFailed)
  | some output =>
    let scanned := scanLines output.data []
    (scanLoop scanned.1 [], if scanned.2 then some ListError.tooLong else none)

/-! ## The supervisor (`runTestsInParallel`, main.go 103-140) -/

/-- Go `strings.Join(elems, sep)`. -/
def Join : List String → String → String
  | [], _ => ""
  | [a], _ => a
  | a :: b :: rest, sep => a ++ sep ++ Join (b :: rest) sep

/-- The filter built for one group (main.go 114):
`pattern := "^(" + strings.Join(group, "|") + ")$"`. -/
def pattern (group : List String) : String :=
  "^(" ++ Join group "|" ++ ")$"

/-- The argument vector of one group's subprocess (main.go 116):
`append([]string{"-test.run", pattern}, testArgs...)`. -/
def groupArgs (group : List String) (testArgs : List String) : List String :=
  ["-test.run", pattern group] ++ testArgs

/-- A non-nil error of `cmd.Run()`: either an `*exec.ExitError`, whose `Sys()` is a
`syscall.WaitStatus` with exit status `s` (`some s`) or is not (`none`), or any
other error. -/
inductive RunError
  | exitError (status : Option Int)
  | other
  deriving DecidableEq, Repr

/-- The outcome of `cmd.Run()` for the unit launched for group `i`, with the binary
and the arguments it was given: `none` is a nil error. -/
abbrev CmdRun := Nat → String → List String → Option RunError

/-- The stores one unit performs on `exitCode`, in program order (main.go 122-130):
nothing when `cmd.Run()` succeeds; `Store(1)` on any error, followed by
`Store(int64(status.ExitStatus()))` when the error is an `ExitError` with a
`WaitStatus`. -/
def unitStores : Option RunError → List Int
  | none => []
  | some (RunError.exitError (some s)) => [1, s]
  | some (RunError.exitError none) => [1]
  | some RunError.other => [1]

/-- The loop `for _, group := range testGroups` (main.go 107-132): an empty group is
skipped, every other group launches one unit. The result lists the launched
units by their pending stores; the first argument is the index of the group at
the head of the list. -/
def launchUnits (cmdRun : CmdRun) (testBinary : String) (testArgs : List String) :
    Nat → List (List String) → List (List Int)
  | _, [] => []
  | i, group :: rest =>
    if group.length = 0 then
      launchUnits cmdRun testBinary testArgs (i + 1) rest
    else
      unitStores (cmdRun i testBinary (groupArgs group testArgs))
        :: launchUnits cmdRun testBinary testArgs (i + 1) rest

/-- One scheduling step: unit `k` performs its next pending store on the shared
cell. Choosing a unit that has no pending store changes nothing. -/
def stepUnit (units : List (List Int)) (cell : Int) (k : Nat) : List (List Int) × Int :=
  match units[k]? with
  | some (v :: rest) => (units.set k rest, v)
  | _ => (units, cell)

/-- Runs the units under a schedule (the sequence of units chosen to make their
next atomic store), from the given pending stores and cell value. -/
def runSchedule : List Nat → List (List Int) → Int → List (List Int) × Int
  | [], units, cell => (units, cell)
  | k :: sched, units, cell =>
    let r := stepUnit units cell k
    runSchedule sched r.1 r.2

/-- All units have performed all their stores: `wg.Wait()` returns. -/
def allDone (units : List (List Int)) : Bool :=
  units.all List.isEmpty

/-- The function `runTestsInParallel` (main.go 103-140) under a schedule of the
units' stores. `exitCode` starts at 0; the result is the value `code` loaded
after `wg.Wait()` (with which the process exits when it is nonzero), or `none`
when the schedule ends before every unit has finished. -/
def runTestsInParallel (cmdRun : CmdRun) (sched : List Nat) (testBinary : String)
    (testArgs : List String) (testGroups : List (List String)) : Option Int :=
  let units := launchUnits cmdRun testBinary testArgs 0 testGroups
  let r := runSchedule sched units 0
  if allDone r.1 then some r.2 else none

/-! ## The entry point (`main`, main.go 16-42) -/

/-- What `main` ends up doing. -/
inductive Action
  | usageFatal
  | listFatal (err : ListError)
  | runDirect (testBinary : String) (testArgs : List String)
  | runParallel (testBinary : String) (testArgs : List String)
      (testGroups : List (List String))
  | panicked
  deriving DecidableEq, Repr

/-- The function `main` (main.go 16-42): `osArgs` is `os.Args`, `cmdOutput` the
result of the listing subprocess, `gomaxprocs` the value of
`runtime.GOMAXPROCS(0)` and `makeLimit` the allocation limit of `divideTests`. -/
def main (makeLimit : Nat) (osArgs : List String) (cmdOutput : Option String)
    (gomaxprocs : Int) : Action :=
  match osArgs with
  | [] => Action.usageFatal
  | [_] => Action.usageFatal
  | _ :: testBinary :: testArgs =>
    match getTestList cmdOutput with
    | (_, some err) => Action.listFatal err
    | (tests, none) =>
      if tests.length ≤ 20 then
        Action.runDirect testBinary testArgs
      else
        match divideTests makeLimit tests gomaxprocs with
        | some testGroups => Action.runParallel testBinary testArgs testGroups
        | none => Action.panicked

/-- The code a failing unit reports: its extracted exit status, or the generic
status 1 when no exit status can be extracted from the error. -/
def reportedCode : RunError → Int
  | RunError.exitError (some s) => s
  | RunError.exitError none => 1
  | RunError.other => 1

/-! ## The filter semantics of the target executable

The pattern after `-test.run` is interpreted by the test binary with Go's `regexp`
package (`regexp.MatchString`, RE2 syntax, unanchored search). The fragment of
that syntax which the patterns of `runTestsInParallel` use is modelled here:
literal characters, alternation `|`, grouping `( )` and the anchors `^` and `$`
(without the multi-line flag: beginning and end of the text). A pattern using
any other metacharacter is outside the fragment. -/

/-- Regular expressions of the modelled fragment. -/
inductive Regex
  | empty
  | lit (c : Char)
  | bol
  | eol
  | cat (r s : Regex)
  | alt (r s : Regex)
  | group (r : Regex)
  deriving DecidableEq, Repr

/-- The characters with a special meaning in a Go regular expression (the set
escaped by `regexp.QuoteMeta`): backslash and `. + * ? ( ) | [ ] { } ^ $`. -/
def isMeta (c : Char) : Bool :=
  decide (c ∈ [Char.ofNat 92, '.', '+', '*', '?', '(', ')', '|', '[', ']', '{', '}', '^', '$'])

/-- One level of the stack the pattern reader keeps: the alternatives already closed
by a `|` and the concatenation being read. -/
structure Frame where
  alts : List Regex
  cur : Regex
  deriving DecidableEq, Repr

/-- The alternation a frame stands for once it is closed. -/
def closeFrame (f : Frame) : Regex :=
  f.alts.foldr Regex.alt f.cur

/-- Reads a pattern of the fragment from left to right with a stack of open groups.
`none` is a syntax error (unbalanced parentheses) or a pattern outside the
fragment. -/
def parseLoop : List Char → List Frame → Frame → Option Regex
  | [], [], f => some (closeFrame f)
  | [], _ :: _, _ => none
  | c :: cs, stack, f =>
    if c = '(' then
      parseLoop cs (f :: stack) ⟨[], Regex.empty⟩
    else if c = ')' then
      match stack with
      | [] => none
      | p :: ps => parseLoop cs ps ⟨p.alts, Regex.cat p.cur (Regex.group (closeFrame f))⟩
    else if c = '|' then
      parseLoop cs stack ⟨f.alts ++ [f.cur], Regex.empty⟩
    else if c = '^' then
      parseLoop cs stack ⟨f.alts, Regex.cat f.cur Regex.bol⟩
    else if c = '$' then
      parseLoop cs stack ⟨f.alts, Regex.cat f.cur Regex.eol⟩
    else if isMeta c then
      none
    else
      parseLoop cs stack ⟨f.alts, Regex.cat f.cur (Regex.lit c)⟩

/-- Model of `regexp.Compile` on the fragment. -/
def regexpCompile (expr : String) : Option Regex :=
  parseLoop expr.data [] ⟨[], Regex.empty⟩

/-- The positions at which a match of `r` that starts at position `i` of the text
`s` can end. -/
def matchEnds : Regex → List Char → Nat → List Nat
  | Regex.empty, _, i => [i]
  | Regex.lit c, s, i => if s[i]? = some c then [i + 1] else []
  | Regex.bol, _, i => if i = 0 then [i] else []
  | Regex.eol, s, i => if i = s.length then [i] else []
  | Regex.cat r t, s, i => (matchEnds r s i).flatMap (fun m => matchEnds t s m)
  | Regex.alt r t, s, i => matchEnds r s i ++ matchEnds t s i
  | Regex.group r, s, i => matchEnds r s i

/-- Unanchored search: `r` matches somewhere in the text `s`. -/
def regexpMatch (r : Regex) (s : List Char) : Bool :=
  (List.range (s.length + 1)).any (fun i => !(matchEnds r s i).isEmpty)

/-- Model of `regexp.MatchString(pattern, s)` on the fragment; `none` when the
pattern does not compile or is outside the fragment. -/
def MatchString (pat s : String) : Option Bool :=
  (regexpCompile pat).map (fun r => regexpMatch r s.data)

/-- The concatenation `r c₁ c₂ …` of `r` with the literals of `cs`. -/
def litSeq (r : Regex) (cs : List Char) : Regex :=
  cs.foldl (fun r c => Regex.cat r (Regex.lit c)) r

/-- The frame reached after reading the identifiers `ids` separated by `|`. -/
def joinFrame : List (List Char) → Frame → Frame
  | [], f => f
  | [a], f => ⟨f.alts, litSeq f.cur a⟩
  | a :: b :: rest, f => joinFrame (b :: rest) ⟨f.alts ++ [litSeq f.cur a], Regex.empty⟩

/-! ## Concrete inputs -/

/-- The 25 identifiers `Test1` .. `Test25` of the specification's end-to-end scenario. -/
def tests25 : List String :=
  ["Test1", "Test2", "Test3", "Test4", "Test5", "Test6", "Test7", "Test8", "Test9",
   "Test10", "Test11", "Test12", "Test13", "Test14", "Test15", "Test16", "Test17",
   "Test18", "Test19", "Test20", "Test21", "Test22", "Test23", "Test24", "Test25"]

/-- Outcomes used to exercise the supervisor: the unit of group 0 exits with
status 2, the unit of group 2 fails without an exit status, all other units
succeed. -/
def sampleRun : CmdRun := fun i _ _ =>
  if i = 0 then some (RunError.exitError (some 2))
  else if i = 2 then some RunError.other
  else none

/-- A listing of 21 different names, the first of which contains the
metacharacter `|`. -/
def listingWithBar : String :=
  "Test1|Test21\nTest2\nTest3\nTest4\nTest5\nTest6\nTest7\nTest8\nTest9\nTest10\nTest11\nTest12\nTest13\nTest14\nTest15\nTest16\nTest17\nTest18\nTest19\nTest20\nTest21\n"

/-- A listing of 21 names in which `Test1` occurs twice. -/
def listingWithDuplicate : String :=
  "Test1\nTest2\nTest3\nTest4\nTest5\nTest6\nTest7\nTest8\nTest9\nTest10\nTest11\nTest12\nTest13\nTest14\nTest15\nTest16\nTest17\nTest18\nTest19\nTest20\nTest1\n"

/-! # Theorems -/

/-! ## The partitioner -/

theorem set_take_succ {α : Type} (g : List α) (j : Nat) (x : α) (h : j < g.length) :
    (g.set j x).take (j + 1) = g.take j ++ [x] := by
  induction g generalizing j with
  | nil => simp at h
  | cons a g ih =>
    cases j with
    | zero => simp
    | succ j =>
      simp only [List.length_cons, Nat.add_lt_add_iff_right] at h
      simp [ih j h]

theorem take_drop_succ (tests : List String) (index k : Nat) (h : index < tests.length) :
    (tests.drop index).take (k + 1)
      = tests.getD index "" :: (tests.drop (index + 1)).take k := by
  rw [List.drop_eq_getElem_cons h, List.take_succ_cons]
  simp [List.getD_eq_getElem?_getD, List.getElem?_eq_getElem h]

theorem fillGroup_eq (tests : List String) (size : Nat) :
    ∀ (fuel j index : Nat) (g : List String),
      g.length = size → j ≤ size → size - j ≤ fuel → index + (size - j) ≤ tests.length →
      fillGroup tests size fuel j index g
        = (g.take j ++ (tests.drop index).take (size - j), index + (size - j)) := by
  intro fuel
  induction fuel with
  | zero =>
    intro j index g hg hj hf _
    have h0 : size - j = 0 := by omega
    have hj' : j = size := by omega
    simp [fillGroup, h0, hj', ← hg]
  | succ fuel ih =>
    intro j index g hg hj hf hi
    unfold fillGroup
    by_cases hlt : j < size
    · have hidx : index < tests.length := by omega
      rw [if_pos ⟨hlt, hidx⟩]
      rw [ih (j + 1) (index + 1) _ (by simp [hg]) (by omega) (by omega) (by omega)]
      have hs : size - j = (size - (j + 1)) + 1 := by omega
      rw [set_take_succ g j _ (by omega), hs, take_drop_succ tests index _ hidx]
      simp
      omega
    · have h0 : size - j = 0 := by omega
      have hj' : j = size := by omega
      rw [if_neg (by intro h; exact hlt h.1)]
      simp [h0, hj', ← hg]


theorem chunk_bound (len n i : Nat) (hi : i < n) :
    i * (len / n) + (if i = n - 1 then len / n + len % n else len / n) ≤ len := by
  have hdm : n * (len / n) + len % n = len := Nat.div_add_mod len n
  have hmul : (i + 1) * (len / n) ≤ n * (len / n) := Nat.mul_le_mul_right _ (by omega)
  rw [Nat.add_mul, Nat.one_mul] at hmul
  split
  · next h =>
    have hn : n = i + 1 := by omega
    rw [hn, Nat.add_mul, Nat.one_mul] at hdm
    rw [hn]
    omega
  · omega

theorem divideLoop_done (tests : List String) (n g r fuel i index : Nat)
    (groups : List (List String)) (hi : n ≤ i) :
    divideLoop tests n g r fuel i index groups = groups := by
  cases fuel with
  | zero => rfl
  | succ fuel => unfold divideLoop; rw [if_neg (by omega)]

theorem divideLoop_eq (tests : List String) (n : Nat) :
    ∀ (fuel i : Nat) (groups : List (List String)),
      groups.length = n → i ≤ n → n - i ≤ fuel →
      divideLoop tests n (tests.length / n) (tests.length % n) fuel i
          (i * (tests.length / n)) groups
        = groups.take i ++ (List.range' i (n - i)).map (chunk tests n) := by
  intro fuel
  induction fuel with
  | zero =>
    intro i groups hg hi hf
    have h0 : n - i = 0 := by omega
    have hi' : i = n := by omega
    simp [divideLoop, h0, hi', ← hg]
  | succ fuel ih =>
    intro i groups hg hi hf
    unfold divideLoop
    by_cases hlt : i < n
    · rw [if_pos hlt]
      have hb := chunk_bound tests.length n i hlt
      simp only
      rw [fillGroup_eq tests _ _ 0 _ _ (by simp) (Nat.zero_le _) (by omega)
        (by simpa using hb)]
      simp only [Nat.sub_zero, List.take_zero, List.nil_append]
      have hr : List.range' i (n - i) = i :: List.range' (i + 1) (n - (i + 1)) := by
        have : n - i = (n - (i + 1)) + 1 := by omega
        rw [this, List.range'_succ]
      have hc : chunk tests n i
          = List.take (if i = n - 1 then tests.length / n + tests.length % n
              else tests.length / n) (List.drop (i * (tests.length / n)) tests) := rfl
      by_cases hlast : i = n - 1
      · rw [divideLoop_done _ _ _ _ _ _ _ _ (by omega)]
        have hn : n - (i + 1) = 0 := by omega
        rw [hr, hn, ← hc]
        have ht : groups.set i (chunk tests n i)
            = List.take (i + 1) (groups.set i (chunk tests n i)) :=
          (List.take_of_length_le (by simp [hg]; omega)).symm
        rw [ht, set_take_succ _ _ _ (by omega)]
        simp
      · have hidx : i * (tests.length / n) + tests.length / n
            = (i + 1) * (tests.length / n) := by
          rw [Nat.add_mul, Nat.one_mul]
        rw [if_neg hlast] at hc ⊢
        rw [hidx, ih (i + 1) _ (by simp [hg]) (by omega) (by omega), hr, ← hc,
          set_take_succ _ _ _ (by omega)]
        simp
    · have h0 : n - i = 0 := by omega
      have hi' : i = n := by omega
      rw [if_neg hlt]
      simp [h0, hi', ← hg]

/-- For a non-empty test list, `divideTests` returns the plan of the `clampedN`
slices, whatever the allocation limit. -/
theorem divideTests_eq (makeLimit : Nat) (tests : List String) (n : Int) (h : tests ≠ []) :
    divideTests makeLimit tests n = some (slicePlan tests n) := by
  have hlen : tests.length ≠ 0 := by simpa using h
  unfold divideTests slicePlan
  simp only [if_neg hlen]
  have hn : (if (if n ≤ 0 then 1 else n.toNat) > tests.length
      then tests.length else (if n ≤ 0 then 1 else n.toNat)) = clampedN tests.length n := by
    unfold clampedN
    rw [Nat.min_def]
    split_ifs <;> omega
  rw [hn]
  have := divideLoop_eq tests (clampedN tests.length n) (clampedN tests.length n) 0
    (List.replicate (clampedN tests.length n) []) (by simp) (Nat.zero_le _) (by omega)
  simp only [Nat.zero_mul, List.take_zero, List.nil_append, Nat.sub_zero] at this
  rw [this, List.range_eq_range']


theorem clampedN_pos (len : Nat) (n : Int) (h : len ≠ 0) : 1 ≤ clampedN len n := by
  unfold clampedN
  rw [Nat.min_def]
  split_ifs <;> omega

theorem clampedN_le (len : Nat) (n : Int) : clampedN len n ≤ len := by
  unfold clampedN
  exact Nat.min_le_right _ _

theorem clampedN_of_nat (len n : Nat) (h1 : 1 ≤ n) (h2 : n ≤ len) :
    clampedN len (n : Int) = n := by
  unfold clampedN
  rw [Nat.min_def]
  split_ifs <;> omega

theorem chunk_of_lt (tests : List String) (n i : Nat) (h : i < n - 1) :
    chunk tests n i = (tests.drop (i * (tests.length / n))).take (tests.length / n) := by
  unfold chunk
  simp only
  rw [if_neg (by omega)]

theorem chunk_last (tests : List String) (n : Nat) (h : 1 ≤ n) :
    chunk tests n (n - 1) = tests.drop ((n - 1) * (tests.length / n)) := by
  unfold chunk
  simp only [if_true]
  apply List.take_of_length_le
  have hb : (n - 1) * (tests.length / n) + tests.length / n + tests.length % n
      = tests.length := by
    have hdm : n * (tests.length / n) + tests.length % n = tests.length :=
      Nat.div_add_mod _ _
    have hn : n * (tests.length / n)
        = (n - 1) * (tests.length / n) + tests.length / n := by
      have hn' : n = (n - 1) + 1 := by omega
      nth_rewrite 1 [hn']
      rw [Nat.add_mul, Nat.one_mul]
    rw [hn] at hdm
    exact hdm
  simp only [List.length_drop]
  generalize (n - 1) * (tests.length / n) = a at hb ⊢
  generalize tests.length / n = b at hb ⊢
  omega

theorem flatten_slices (tests : List String) (g : Nat) :
    ∀ k : Nat, ((List.range k).map (fun i => (tests.drop (i * g)).take g)).flatten
      = tests.take (k * g) := by
  intro k
  induction k with
  | zero => simp
  | succ k ih =>
    rw [List.range_succ, List.map_append, List.flatten_append, ih]
    simp only [List.map_cons, List.map_nil, List.flatten_cons, List.flatten_nil,
      List.append_nil]
    rw [Nat.add_mul, Nat.one_mul, List.take_add]

theorem flatten_chunks (tests : List String) (n : Nat) (h : 1 ≤ n) :
    ((List.range n).map (chunk tests n)).flatten = tests := by
  obtain ⟨m, rfl⟩ : ∃ m, n = m + 1 := ⟨n - 1, by omega⟩
  rw [List.range_succ, List.map_append, List.flatten_append]
  have h1 : (List.range m).map (chunk tests (m + 1))
      = (List.range m).map (fun i =>
          (tests.drop (i * (tests.length / (m + 1)))).take (tests.length / (m + 1))) := by
    apply List.map_congr_left
    intro i hi
    exact chunk_of_lt tests (m + 1) i (by simpa using hi)
  have h2 := chunk_last tests (m + 1) h
  simp only [Nat.add_sub_cancel] at h2
  rw [h1, flatten_slices]
  simp [h2]


theorem slicePlan_flatten (tests : List String) (n : Int) (ht : tests ≠ []) :
    (slicePlan tests n).flatten = tests :=
  flatten_chunks tests _ (clampedN_pos _ _ (by simpa using ht))

theorem slicePlan_length (tests : List String) (n : Int) :
    (slicePlan tests n).length = clampedN tests.length n := by
  simp [slicePlan]

theorem slicePlan_getElem? (tests : List String) (n : Int) (i : Nat)
    (hi : i < clampedN tests.length n) :
    (slicePlan tests n)[i]? = some (chunk tests (clampedN tests.length n) i) := by
  simp [slicePlan, List.getElem?_map, List.getElem?_range hi]

/-- C1. Partition completeness: for every non-empty `tests` and every `n ≥ 1`,
`divideTests` returns a plan, and concatenating its groups in group order gives
back exactly `tests`, the group sizes adding up to the number of tests. -/
theorem divideTests_partition_complete (makeLimit : Nat) (tests : List String) (n : Int)
    (ht : tests ≠ []) (_hn : 1 ≤ n) :
    ∃ groups, divideTests makeLimit tests n = some groups ∧
      groups.flatten = tests ∧ (groups.map List.length).sum = tests.length := by
  have h := slicePlan_flatten tests n ht
  refine ⟨slicePlan tests n, divideTests_eq makeLimit tests n ht, h, ?_⟩
  rw [← List.length_flatten, h]

theorem divideTests_partition_complete_witness :
    ["TestA", "TestB", "TestC"] ≠ [] ∧ (1 : Int) ≤ 2 ∧
      divideTests 1024 ["TestA", "TestB", "TestC"] 2 = some [["TestA"], ["TestB", "TestC"]] ∧
      ∃ groups, divideTests 1024 ["TestA", "TestB", "TestC"] 2 = some groups ∧
        groups.flatten = ["TestA", "TestB", "TestC"] ∧
        (groups.map List.length).sum = ["TestA", "TestB", "TestC"].length :=
  ⟨by decide, by decide, by decide,
    divideTests_partition_complete 1024 ["TestA", "TestB", "TestC"] 2 (by decide) (by decide)⟩

/-- C2. Exact group boundaries: for non-empty `tests` and `1 ≤ n ≤ len(tests)`, with
`g = len(tests) / n`, `divideTests` returns a plan of `n` groups, group `i` for
`i < n - 1` is the slice `tests[i*g .. (i+1)*g)` of `g` items, and the last group is
`tests[(n-1)*g ..)` of `g + len(tests) mod n` items. -/
theorem divideTests_boundaries (makeLimit : Nat) (tests : List String) (n : Nat)
    (ht : tests ≠ []) (h1 : 1 ≤ n) (h2 : n ≤ tests.length) :
    ∃ groups, divideTests makeLimit tests n = some groups ∧
      groups.length = n ∧
      (∀ i, i < n - 1 →
        groups[i]? = some ((tests.drop (i * (tests.length / n))).take (tests.length / n)) ∧
        ((tests.drop (i * (tests.length / n))).take (tests.length / n)).length
          = tests.length / n) ∧
      groups[n - 1]? = some (tests.drop ((n - 1) * (tests.length / n))) ∧
      (tests.drop ((n - 1) * (tests.length / n))).length
        = tests.length / n + tests.length % n := by
  have hc := clampedN_of_nat tests.length n h1 h2
  have hlast : (n - 1) * (tests.length / n) + tests.length / n + tests.length % n
      = tests.length := by
    have hdm : n * (tests.length / n) + tests.length % n = tests.length :=
      Nat.div_add_mod _ _
    have hn : n * (tests.length / n)
        = (n - 1) * (tests.length / n) + tests.length / n := by
      have hn' : n = (n - 1) + 1 := by omega
      nth_rewrite 1 [hn']
      rw [Nat.add_mul, Nat.one_mul]
    rw [hn] at hdm
    exact hdm
  refine ⟨slicePlan tests n, divideTests_eq makeLimit tests n ht, ?_, ?_, ?_, ?_⟩
  · rw [slicePlan_length tests n, hc]
  · intro i hi
    constructor
    · rw [slicePlan_getElem? tests n i (by omega), hc, chunk_of_lt tests n i hi]
    · have hb := chunk_bound tests.length n i (by omega)
      rw [if_neg (by omega)] at hb
      simp only [List.length_take, List.length_drop]
      generalize i * (tests.length / n) = a at hb ⊢
      generalize tests.length / n = b at hb ⊢
      omega
  · rw [slicePlan_getElem? tests n (n - 1) (by omega), hc, chunk_last tests n h1]
  · simp only [List.length_drop]
    generalize (n - 1) * (tests.length / n) = a at hlast ⊢
    generalize tests.length / n = b at hlast ⊢
    generalize tests.length % n = c at hlast ⊢
    omega

theorem divideTests_boundaries_witness :
    (tests25 ≠ [] ∧ 1 ≤ 4 ∧ 4 ≤ tests25.length) ∧
      (divideTests 1024 tests25 4).map (fun groups => groups.map List.length)
        = some [6, 6, 6, 7] ∧
      (divideTests 1024 tests25 4).map (fun groups => groups[3]?)
        = some (some ["Test19", "Test20", "Test21", "Test22", "Test23", "Test24",
            "Test25"]) ∧
      ∃ groups, divideTests 1024 tests25 ((4 : Nat) : Int) = some groups ∧
        groups.length = 4 ∧
        (∀ i, i < 4 - 1 →
          groups[i]?
            = some ((tests25.drop (i * (tests25.length / 4))).take (tests25.length / 4)) ∧
          ((tests25.drop (i * (tests25.length / 4))).take (tests25.length / 4)).length
            = tests25.length / 4) ∧
        groups[4 - 1]? = some (tests25.drop ((4 - 1) * (tests25.length / 4))) ∧
        (tests25.drop ((4 - 1) * (tests25.length / 4))).length
          = tests25.length / 4 + tests25.length % 4 :=
  ⟨by decide, by decide, by decide,
    divideTests_boundaries 1024 tests25 4 (by decide) (by decide) (by decide)⟩

/-- On the empty list `divideTests` returns the requested number of groups, all
empty, when that many groups can be allocated, and does not return otherwise. -/
theorem divideTests_empty (makeLimit : Nat) (n : Int) :
    divideTests makeLimit [] n
      = if (if n ≤ 0 then 1 else n.toNat) ≤ makeLimit
        then some (List.replicate (if n ≤ 0 then 1 else n.toNat) []) else none := by
  simp [divideTests]

/-- C3 (as stated) fails on the empty sequence: with `n = 4` the plan has 4 groups,
not `min 4 0 = 0`. -/
theorem divideTests_length_min_counterexample :
    (1 : Int) ≤ 4 ∧
      divideTests 1024 [] 4 = some [[], [], [], []] ∧
      (([[], [], [], []] : List (List String)).length : Int)
        ≠ min (4 : Int) ((([] : List String).length : Nat) : Int) := by
  decide

/-- C3 (amended). Plan length: for `n ≥ 1`, a non-empty `tests` gives a plan of
`min n (len tests)` groups; the empty sequence, when `n` groups can be
allocated, gives a plan of `n` groups, all of them empty. -/
theorem divideTests_plan_length (makeLimit : Nat) (tests : List String) (n : Int)
    (hn : 1 ≤ n) (hmake : tests = [] → n ≤ (makeLimit : Int)) :
    ∃ groups, divideTests makeLimit tests n = some groups ∧
      (groups.length : Int) = (if tests = [] then n else min n (tests.length : Int)) ∧
      (tests = [] → ∀ g ∈ groups, g = []) := by
  by_cases ht : tests = []
  · subst ht
    have hle : (if n ≤ 0 then 1 else n.toNat) ≤ makeLimit := by
      have := hmake rfl
      rw [if_neg (by omega)]
      omega
    refine ⟨List.replicate (if n ≤ 0 then 1 else n.toNat) [], ?_, ?_, ?_⟩
    · rw [divideTests_empty, if_pos hle]
    · rw [if_pos rfl, List.length_replicate, if_neg (by omega)]
      omega
    · intro _ g hg
      exact List.eq_of_mem_replicate hg
  · refine ⟨slicePlan tests n, divideTests_eq makeLimit tests n ht, ?_, fun h => absurd h ht⟩
    rw [if_neg ht, slicePlan_length]
    unfold clampedN
    rw [if_neg (by omega)]
    omega

theorem divideTests_plan_length_witness :
    (1 : Int) ≤ 4 ∧ (([] : List String) = [] → (4 : Int) ≤ ((1024 : Nat) : Int)) ∧
      ∃ groups, divideTests 1024 [] 4 = some groups ∧
        (groups.length : Int)
          = (if ([] : List String) = [] then (4 : Int)
              else min (4 : Int) ((([] : List String).length : Nat) : Int)) ∧
        (([] : List String) = [] → ∀ g ∈ groups, g = []) :=
  ⟨by decide, by decide, divideTests_plan_length 1024 [] 4 (by decide) (by decide)⟩

/-- Beyond the allocation limit the empty-list path does not return. -/
theorem divideTests_empty_beyond_limit (makeLimit : Nat) (n : Int)
    (h : (makeLimit : Int) < n) : divideTests makeLimit [] n = none := by
  rw [divideTests_empty, if_neg]
  split <;> omega

theorem chunk_ne_nil (tests : List String) (n i : Nat) (h1 : 1 ≤ n) (h2 : n ≤ tests.length)
    (hi : i < n) : chunk tests n i ≠ [] := by
  have hg : 1 ≤ tests.length / n := (Nat.one_le_div_iff (by omega)).2 h2
  have hb := chunk_bound tests.length n i hi
  have hs : 1 ≤ (if i = n - 1 then tests.length / n + tests.length % n
      else tests.length / n) := by
    split <;> omega
  intro h
  have hl := congrArg List.length h
  unfold chunk at hl
  simp only [List.length_take, List.length_drop, List.length_nil] at hl
  generalize (if i = n - 1 then tests.length / n + tests.length % n
      else tests.length / n) = s at hb hl hs
  generalize i * (tests.length / n) = a at hb hl
  omega

theorem slicePlan_ne_nil (tests : List String) (n : Int) (ht : tests ≠ []) :
    ∀ g ∈ slicePlan tests n, g ≠ [] := by
  have hlen : tests.length ≠ 0 := by simpa using ht
  intro g hg
  simp only [slicePlan, List.mem_map, List.mem_range] at hg
  obtain ⟨i, hi, rfl⟩ := hg
  exact chunk_ne_nil tests _ i (clampedN_pos _ _ hlen) (clampedN_le _ _) hi

theorem singletons_eq (tests : List String) :
    (List.range tests.length).map (chunk tests tests.length) = tests.map (fun t => [t]) := by
  apply List.ext_getElem?
  intro i
  by_cases hi : i < tests.length
  · have hpos : 0 < tests.length := by omega
    simp only [List.getElem?_map, List.getElem?_range hi, List.getElem?_eq_getElem hi,
      Option.map_some']
    unfold chunk
    simp only [Nat.div_self hpos, Nat.mod_self, Nat.mul_one, Nat.add_zero, ite_self]
    rw [List.drop_eq_getElem_cons hi, List.take_succ_cons, List.take_zero]
  · have h1 : (List.range tests.length)[i]? = none := by
      apply List.getElem?_eq_none; simp; omega
    have h2 : tests[i]? = none := by
      apply List.getElem?_eq_none; omega
    simp [List.getElem?_map, h1, h2]

/-- C5. Clamping produces no empty groups: for every non-empty `tests` and every
integer `n`, `divideTests` returns a plan none of whose groups is empty; and
when `n ≥ len(tests)` the plan is exactly one singleton group per test, group
`i` being `[tests[i]]`. -/
theorem divideTests_no_empty_group (makeLimit : Nat) (tests : List String) (n : Int)
    (ht : tests ≠ []) :
    ∃ groups, divideTests makeLimit tests n = some groups ∧
      (∀ g ∈ groups, g ≠ []) ∧
      ((tests.length : Int) ≤ n → groups = tests.map (fun t => [t])) := by
  refine ⟨slicePlan tests n, divideTests_eq makeLimit tests n ht,
    slicePlan_ne_nil tests n ht, ?_⟩
  intro hn
  have hlen : tests.length ≠ 0 := by simpa using ht
  have hc : clampedN tests.length n = tests.length := by
    unfold clampedN
    rw [if_neg (by omega)]
    omega
  rw [slicePlan, hc, singletons_eq]

theorem divideTests_no_empty_group_witness :
    ["Test1", "Test2", "Test3", "Test4", "Test5"] ≠ [] ∧
      divideTests 1024 ["Test1", "Test2", "Test3", "Test4", "Test5"] 10
        = some [["Test1"], ["Test2"], ["Test3"], ["Test4"], ["Test5"]] ∧
      ∃ groups, divideTests 1024 ["Test1", "Test2", "Test3", "Test4", "Test5"] 10
          = some groups ∧
        (∀ g ∈ groups, g ≠ []) ∧
        (((["Test1", "Test2", "Test3", "Test4", "Test5"].length : Nat) : Int) ≤ 10 →
          groups = ["Test1", "Test2", "Test3", "Test4", "Test5"].map (fun t => [t])) :=
  ⟨by decide, by decide,
    divideTests_no_empty_group 1024 ["Test1", "Test2", "Test3", "Test4", "Test5"] 10
      (by decide)⟩

/-- Every group of a plan of the empty list is empty. -/
theorem divideTests_empty_groups (makeLimit : Nat) (n : Int) (groups : List (List String))
    (hg : divideTests makeLimit [] n = some groups) : ∀ g ∈ groups, g = [] := by
  rw [divideTests_empty] at hg
  by_cases hle : (if n ≤ 0 then 1 else n.toNat) ≤ makeLimit
  · rw [if_pos hle] at hg
    have hg' := Option.some.inj hg
    intro g hmem
    rw [← hg'] at hmem
    exact List.eq_of_mem_replicate hmem
  · rw [if_neg hle] at hg
    cases hg

/-- Two different groups of a plan of a duplicate-free list share no identifier. -/
theorem divideTests_groups_disjoint (makeLimit : Nat) (tests : List String) (n : Int)
    (hnd : tests.Nodup) (groups : List (List String))
    (hg : divideTests makeLimit tests n = some groups)
    (i j : Nat) (gi gj : List String) (hij : i ≠ j)
    (hi : groups[i]? = some gi) (hj : groups[j]? = some gj) :
    ∀ t, t ∈ gi → t ∉ gj := by
  by_cases ht : tests = []
  · subst ht
    have := divideTests_empty_groups makeLimit n groups hg gi (List.getElem?_mem hi)
    subst this
    intro t h
    simp at h
  · rw [divideTests_eq makeLimit tests n ht] at hg
    have hg' := Option.some.inj hg
    have hf := slicePlan_flatten tests n ht
    rw [hg'] at hf
    rw [← hf, List.nodup_flatten] at hnd
    have hp := List.pairwise_iff_getElem.1 hnd.2
    obtain ⟨hi', hie⟩ := List.getElem?_eq_some_iff.1 hi
    obtain ⟨hj', hje⟩ := List.getElem?_eq_some_iff.1 hj
    intro t hti htj
    rcases Nat.lt_or_gt_of_ne hij with h | h
    · have := hp i j hi' hj' h
      rw [hie, hje] at this
      exact this hti htj
    · have := hp j i hj' hi' h
      rw [hie, hje] at this
      exact this htj hti

/-- Every identifier of a group of a plan is one of the tests. -/
theorem divideTests_group_subset (makeLimit : Nat) (tests : List String) (n : Int)
    (groups : List (List String)) (hg : divideTests makeLimit tests n = some groups)
    (g : List String) (hmem : g ∈ groups) : ∀ t ∈ g, t ∈ tests := by
  by_cases ht : tests = []
  · subst ht
    have := divideTests_empty_groups makeLimit n groups hg g hmem
    subst this
    intro t h
    simp at h
  · rw [divideTests_eq makeLimit tests n ht] at hg
    have hg' := Option.some.inj hg
    have hf := slicePlan_flatten tests n ht
    rw [hg'] at hf
    intro t htg
    rw [← hf]
    exact List.mem_flatten.2 ⟨g, hmem, htg⟩

/-! ## Parser and dispatch lemmas -/

theorem hasPrefix_ne_empty (line : String) (h : HasPrefix line "Test" = true) : line ≠ "" := by
  intro he
  subst he
  exact absurd h (by decide)

theorem scanLoop_eq (toks tests : List String) :
    scanLoop toks tests
      = tests ++ (toks.map TrimSpace).filter (fun l => HasPrefix l "Test") := by
  induction toks generalizing tests with
  | nil => simp [scanLoop]
  | cons text rest ih =>
    unfold scanLoop
    by_cases hp : HasPrefix (TrimSpace text) "Test" = true
    · have hne := hasPrefix_ne_empty _ hp
      simp only
      rw [if_pos ⟨hne, hp⟩, ih]
      simp [List.filter_cons, hp]
    · simp only
      rw [if_neg (fun h => hp h.2), ih]
      simp [List.filter_cons, hp]

/-! ## Scheduling lemmas -/

theorem stepUnit_cases (units : List (List Int)) (cell : Int) (k : Nat) :
    stepUnit units cell k = (units, cell) ∨
      ∃ v rest, units[k]? = some (v :: rest) ∧ stepUnit units cell k = (units.set k rest, v) := by
  unfold stepUnit
  cases h : units[k]? with
  | none => left; rfl
  | some u =>
    cases u with
    | nil => left; rfl
    | cons v rest => right; exact ⟨v, rest, rfl, rfl⟩

theorem allDone_iff (units : List (List Int)) : allDone units = true ↔ ∀ u ∈ units, u = [] := by
  simp [allDone, List.all_eq_true, List.isEmpty_iff]

/-- Last writer wins: once every unit has finished, either no unit had a pending
store and the cell is unchanged, or the cell holds the last store of some unit. -/
theorem runSchedule_last_writer (sched : List Nat) :
    ∀ (units : List (List Int)) (cell : Int),
      allDone (runSchedule sched units cell).1 = true →
      (allDone units = true ∧ (runSchedule sched units cell).2 = cell) ∨
        ∃ (k : Nat) (u : List Int),
          units[k]? = some u ∧ u.getLast? = some (runSchedule sched units cell).2 := by
  induction sched with
  | nil =>
    intro units cell h
    left
    exact ⟨h, rfl⟩
  | cons k sched ih =>
    intro units cell h
    unfold runSchedule at h ⊢
    simp only at h ⊢
    rcases stepUnit_cases units cell k with hs | ⟨v, rest, hk, hs⟩
    · rw [hs] at h ⊢
      exact ih units cell h
    · rw [hs] at h ⊢
      simp only at h ⊢
      have hklt : k < units.length := (List.getElem?_eq_some_iff.1 hk).1
      rcases ih (units.set k rest) v h with ⟨hd, hc⟩ | ⟨j, u, hj, hl⟩
      · right
        refine ⟨k, v :: rest, hk, ?_⟩
        have hrest : rest = [] := by
          apply (allDone_iff _).1 hd
          exact List.getElem?_mem (l := units.set k rest) (n := k) (by simp [hklt])
        rw [hc, hrest]
        rfl
      · right
        by_cases hjk : j = k
        · subst hjk
          have : u = rest := by
            have : (units.set j rest)[j]? = some rest := by simp [hklt]
            rw [this] at hj
            exact (Option.some.inj hj).symm
          subst this
          refine ⟨j, v :: u, hk, ?_⟩
          cases u with
          | nil => simp at hl
          | cons a u => simpa [List.getLast?_cons_cons] using hl
        · refine ⟨j, u, ?_, hl⟩
          rw [List.getElem?_set_ne (Ne.symm hjk)] at hj
          exact hj

theorem sum_length_set (units : List (List Int)) (k : Nat) (v : Int) (rest : List Int)
    (h : units[k]? = some (v :: rest)) :
    ((units.set k rest).map List.length).sum + 1 = (units.map List.length).sum := by
  induction units generalizing k with
  | nil => simp at h
  | cons u units ih =>
    cases k with
    | zero =>
      simp only [List.getElem?_cons_zero, Option.some.injEq] at h
      subst h
      simp
      omega
    | succ k =>
      simp only [List.getElem?_cons_succ] at h
      have := ih k h
      simp only [List.set_cons_succ, List.map_cons, List.sum_cons]
      omega

/-- Every set of units can be run to completion: some schedule finishes them all. -/
theorem exists_complete_schedule :
    ∀ (m : Nat) (units : List (List Int)) (cell : Int),
      (units.map List.length).sum ≤ m →
      ∃ sched, allDone (runSchedule sched units cell).1 = true := by
  intro m
  induction m with
  | zero =>
    intro units cell h
    refine ⟨[], ?_⟩
    rw [runSchedule, allDone_iff]
    intro u hu
    have : u.length ≤ (units.map List.length).sum :=
      List.single_le_sum (by simp) _ (List.mem_map_of_mem _ hu)
    exact List.length_eq_zero.1 (by omega)
  | succ m ih =>
    intro units cell h
    by_cases hd : allDone units = true
    · exact ⟨[], hd⟩
    · rw [allDone_iff] at hd
      push_neg at hd
      obtain ⟨u, hu, hne⟩ := hd
      obtain ⟨k, hk⟩ := List.mem_iff_getElem?.1 hu
      cases u with
      | nil => exact absurd rfl hne
      | cons v rest =>
        have hsum := sum_length_set units k v rest hk
        obtain ⟨sched, hs⟩ := ih (units.set k rest) v (by omega)
        refine ⟨k :: sched, ?_⟩
        have hstep : stepUnit units cell k = (units.set k rest, v) := by
          unfold stepUnit
          rw [hk]
        unfold runSchedule
        simp only [hstep]
        exact hs

/-- Every launched unit belongs to a non-empty group and holds the stores of that
group's subprocess outcome. -/
theorem launchUnits_mem (cmdRun : CmdRun) (testBinary : String) (testArgs : List String) :
    ∀ (testGroups : List (List String)) (i0 : Nat) (u : List Int),
      u ∈ launchUnits cmdRun testBinary testArgs i0 testGroups →
      ∃ i group, testGroups[i]? = some group ∧ group ≠ [] ∧
        u = unitStores (cmdRun (i0 + i) testBinary (groupArgs group testArgs)) := by
  intro testGroups
  induction testGroups with
  | nil => intro i0 u h; simp [launchUnits] at h
  | cons g rest ih =>
    intro i0 u h
    unfold launchUnits at h
    by_cases hg : g.length = 0
    · rw [if_pos hg] at h
      obtain ⟨i, group, h1, h2, h3⟩ := ih (i0 + 1) u h
      refine ⟨i + 1, group, by simpa using h1, h2, ?_⟩
      rw [h3]
      congr 2
      omega
    · rw [if_neg hg] at h
      rcases List.mem_cons.1 h with h | h
      · exact ⟨0, g, by simp, by intro h0; simp [h0] at hg, by simpa using h⟩
      · obtain ⟨i, group, h1, h2, h3⟩ := ih (i0 + 1) u h
        refine ⟨i + 1, group, by simpa using h1, h2, ?_⟩
        rw [h3]
        congr 2
        omega

/-- Every non-empty group has launched a unit holding the stores of its outcome. -/
theorem mem_launchUnits (cmdRun : CmdRun) (testBinary : String) (testArgs : List String) :
    ∀ (testGroups : List (List String)) (i0 i : Nat) (group : List String),
      testGroups[i]? = some group → group ≠ [] →
      unitStores (cmdRun (i0 + i) testBinary (groupArgs group testArgs))
        ∈ launchUnits cmdRun testBinary testArgs i0 testGroups := by
  intro testGroups
  induction testGroups with
  | nil => intro i0 i group h; simp at h
  | cons g rest ih =>
    intro i0 i group h hne
    unfold launchUnits
    cases i with
    | zero =>
      simp only [List.getElem?_cons_zero, Option.some.injEq] at h
      subst h
      have hg : g.length ≠ 0 := by simpa using hne
      rw [if_neg hg]
      simp
    | succ i =>
      simp only [List.getElem?_cons_succ] at h
      have := ih (i0 + 1) i group h hne
      have he : i0 + 1 + i = i0 + (i + 1) := by omega
      rw [he] at this
      split
      · exact this
      · exact List.mem_cons_of_mem _ this


theorem unitStores_getLast (o : Option RunError) (c : Int)
    (h : (unitStores o).getLast? = some c) : ∃ e, o = some e ∧ c = reportedCode e := by
  cases o with
  | none => simp [unitStores] at h
  | some e =>
    refine ⟨e, rfl, ?_⟩
    cases e with
    | exitError status =>
      cases status with
      | none => simpa [unitStores, reportedCode] using h.symm
      | some s => simpa [unitStores, reportedCode] using h.symm
    | other => simpa [unitStores, reportedCode] using h.symm

theorem unitStores_eq_nil (o : Option RunError) : unitStores o = [] ↔ o = none := by
  cases o with
  | none => simp [unitStores]
  | some e =>
    cases e with
    | exitError status => cases status <;> simp [unitStores]
    | other => simp [unitStores]

/-- The value loaded after `wg.Wait()`: 0 when no launched unit had a failing
outcome, otherwise the reported code of a unit that failed. -/
theorem runTestsInParallel_code (cmdRun : CmdRun) (sched : List Nat) (testBinary : String)
    (testArgs : List String) (testGroups : List (List String)) (code : Int)
    (h : runTestsInParallel cmdRun sched testBinary testArgs testGroups = some code) :
    (code = 0 ∧ ∀ i group, testGroups[i]? = some group → group ≠ [] →
        cmdRun i testBinary (groupArgs group testArgs) = none) ∨
      ∃ i group e, testGroups[i]? = some group ∧ group ≠ [] ∧
        cmdRun i testBinary (groupArgs group testArgs) = some e ∧ code = reportedCode e := by
  unfold runTestsInParallel at h
  simp only at h
  split at h
  · next hd =>
    have hc := Option.some.inj h
    rcases runSchedule_last_writer sched _ 0 hd with ⟨h0, hcell⟩ | ⟨k, u, hk, hl⟩
    · left
      refine ⟨by rw [← hc, hcell], ?_⟩
      intro i group hi hne
      have hm := mem_launchUnits cmdRun testBinary testArgs testGroups 0 i group hi hne
      rw [Nat.zero_add] at hm
      exact (unitStores_eq_nil _).1 ((allDone_iff _).1 h0 _ hm)
    · right
      obtain ⟨i, group, hi, hne, hu⟩ :=
        launchUnits_mem cmdRun testBinary testArgs testGroups 0 u (List.getElem?_mem hk)
      rw [Nat.zero_add] at hu
      rw [hu, hc] at hl
      obtain ⟨e, he, hcode⟩ := unitStores_getLast _ _ hl
      exact ⟨i, group, e, hi, hne, he, hcode⟩
  · exact absurd h (by simp)

theorem runTestsInParallel_completes (cmdRun : CmdRun) (testBinary : String)
    (testArgs : List String) (testGroups : List (List String)) :
    ∃ sched code, runTestsInParallel cmdRun sched testBinary testArgs testGroups = some code := by
  obtain ⟨sched, hs⟩ := exists_complete_schedule _
    (launchUnits cmdRun testBinary testArgs 0 testGroups) 0 (Nat.le_refl _)
  refine ⟨sched,
    (runSchedule sched (launchUnits cmdRun testBinary testArgs 0 testGroups) 0).2, ?_⟩
  unfold runTestsInParallel
  simp only [hs, if_true]

theorem reportedCode_ne_zero (cmdRun : CmdRun)
    (hstatus : ∀ i b a s, cmdRun i b a = some (RunError.exitError (some s)) → s ≠ 0)
    (i : Nat) (b : String) (a : List String) (e : RunError) (h : cmdRun i b a = some e) :
    reportedCode e ≠ 0 := by
  cases e with
  | exitError status =>
    cases status with
    | none => simp [reportedCode]
    | some s => exact hstatus i b a s h
  | other => simp [reportedCode]

/-- C6. Aggregate failure reporting: when every extracted exit status of a failing
subprocess is nonzero, then for every plan, every combination of outcomes and
every schedule that lets all units finish (one always exists), the aggregate
code read after all units complete is nonzero if some non-empty group's run
failed, and is exactly 0 if every non-empty group's run succeeded (also when
all groups are empty and nothing is launched). -/
theorem runTestsInParallel_aggregate (cmdRun : CmdRun) (testBinary : String)
    (testArgs : List String) (testGroups : List (List String))
    (hstatus : ∀ i b a s, cmdRun i b a = some (RunError.exitError (some s)) → s ≠ 0) :
    (∃ sched code,
        runTestsInParallel cmdRun sched testBinary testArgs testGroups = some code) ∧
      ∀ sched code,
        runTestsInParallel cmdRun sched testBinary testArgs testGroups = some code →
        ((∃ i group, testGroups[i]? = some group ∧ group ≠ [] ∧
            cmdRun i testBinary (groupArgs group testArgs) ≠ none) → code ≠ 0) ∧
        ((∀ i group, testGroups[i]? = some group → group ≠ [] →
            cmdRun i testBinary (groupArgs group testArgs) = none) → code = 0) := by
  refine ⟨runTestsInParallel_completes cmdRun testBinary testArgs testGroups, ?_⟩
  intro sched code h
  rcases runTestsInParallel_code cmdRun sched testBinary testArgs testGroups code h with
    ⟨h0, hall⟩ | ⟨i, group, e, hi, hne, he, hcode⟩
  · constructor
    · rintro ⟨i, group, hi, hne, hf⟩
      exact absurd (hall i group hi hne) hf
    · intro _
      exact h0
  · constructor
    · intro _
      rw [hcode]
      exact reportedCode_ne_zero cmdRun hstatus _ _ _ e he
    · intro hall
      rw [hall i group hi hne] at he
      exact absurd he (by simp)

theorem sampleRun_status (i : Nat) (b : String) (a : List String) (s : Int)
    (h : sampleRun i b a = some (RunError.exitError (some s))) : s ≠ 0 := by
  unfold sampleRun at h
  split at h
  · injection h with h
    injection h with h
    injection h with h
    omega
  · split at h
    · injection h with h
      cases h
    · cases h

theorem runTestsInParallel_aggregate_witness :
    (∀ i b a s, sampleRun i b a = some (RunError.exitError (some s)) → s ≠ 0) ∧
      runTestsInParallel sampleRun [0, 2, 0] "pkg.test" ["-test.v"]
        [["TestA"], ["TestB"], ["TestC"]] = some 2 ∧ (2 : Int) ≠ 0 :=
  ⟨sampleRun_status, by decide,
    ((runTestsInParallel_aggregate sampleRun "pkg.test" ["-test.v"]
        [["TestA"], ["TestB"], ["TestC"]] sampleRun_status).2 [0, 2, 0] 2 (by decide)).1
      ⟨0, ["TestA"], by decide, by decide, by decide⟩⟩

/-- C10. Last-writer-wins aggregation: for every plan and every combination of
outcomes, the units' stores can be scheduled to completion, and for every
schedule of the stores that lets all units finish, the value read afterwards
is 0 when no unit failed and otherwise equals the reported code of some
failing unit (its extracted exit status, or 1 when none can be extracted); a
successful unit performs no store and never changes the cell. -/
theorem runTestsInParallel_last_writer_wins (cmdRun : CmdRun) (testBinary : String)
    (testArgs : List String) (testGroups : List (List String)) :
    (∃ sched code,
        runTestsInParallel cmdRun sched testBinary testArgs testGroups = some code) ∧
      (∀ sched code,
        runTestsInParallel cmdRun sched testBinary testArgs testGroups = some code →
        ((∀ i group, testGroups[i]? = some group → group ≠ [] →
            cmdRun i testBinary (groupArgs group testArgs) = none) → code = 0) ∧
        ((∃ i group, testGroups[i]? = some group ∧ group ≠ [] ∧
            cmdRun i testBinary (groupArgs group testArgs) ≠ none) →
          ∃ i group e, testGroups[i]? = some group ∧ group ≠ [] ∧
            cmdRun i testBinary (groupArgs group testArgs) = some e ∧
            code = reportedCode e)) ∧
      unitStores none = [] ∧
      (∀ (units : List (List Int)) (cell : Int) (k : Nat),
        units[k]? = some [] → stepUnit units cell k = (units, cell)) := by
  refine ⟨runTestsInParallel_completes cmdRun testBinary testArgs testGroups, ?_, rfl, ?_⟩
  · intro sched code h
    rcases runTestsInParallel_code cmdRun sched testBinary testArgs testGroups code h with
      ⟨h0, hall⟩ | ⟨i, group, e, hi, hne, he, hcode⟩
    · constructor
      · intro _
        exact h0
      · rintro ⟨i, group, hi, hne, hf⟩
        exact absurd (hall i group hi hne) hf
    · constructor
      · intro hall
        rw [hall i group hi hne] at he
        exact absurd he (by simp)
      · intro _
        exact ⟨i, group, e, hi, hne, he, hcode⟩
  · intro units cell k hk
    unfold stepUnit
    rw [hk]

theorem runTestsInParallel_last_writer_wins_witness :
    runTestsInParallel sampleRun [0, 2, 0] "pkg.test" ["-test.v"]
        [["TestA"], ["TestB"], ["TestC"]] = some 2 ∧
      runTestsInParallel sampleRun [0, 0, 2] "pkg.test" ["-test.v"]
        [["TestA"], ["TestB"], ["TestC"]] = some 1 ∧
      runTestsInParallel sampleRun [0, 2] "pkg.test" ["-test.v"]
        [["TestA"], ["TestB"], ["TestC"]] = none ∧
      (∃ i group e, [["TestA"], ["TestB"], ["TestC"]][i]? = some group ∧ group ≠ [] ∧
        sampleRun i "pkg.test" (groupArgs group ["-test.v"]) = some e ∧
        (1 : Int) = reportedCode e) :=
  ⟨by decide, by decide, by decide,
    ((runTestsInParallel_last_writer_wins sampleRun "pkg.test" ["-test.v"]
        [["TestA"], ["TestB"], ["TestC"]]).2.1 [0, 0, 2] 1 (by decide)).2
      ⟨0, ["TestA"], by decide, by decide, by decide⟩⟩

/-- C7. Fallback threshold: once the listing has succeeded with `tests`, `main` takes
the single direct run exactly when `len(tests) ≤ 20`, and takes `divideTests`
followed by the parallel run exactly when `len(tests) ≥ 21`. -/
theorem main_threshold (makeLimit : Nat) (prog testBinary : String)
    (testArgs : List String) (cmdOutput : Option String) (gomaxprocs : Int)
    (tests : List String) (h : getTestList cmdOutput = (tests, none)) :
    (main makeLimit (prog :: testBinary :: testArgs) cmdOutput gomaxprocs
        = Action.runDirect testBinary testArgs ↔ tests.length ≤ 20) ∧
      ((∃ groups, divideTests makeLimit tests gomaxprocs = some groups ∧
          main makeLimit (prog :: testBinary :: testArgs) cmdOutput gomaxprocs
            = Action.runParallel testBinary testArgs groups)
          ↔ 21 ≤ tests.length) ∧
      ((∃ b a, main makeLimit (prog :: testBinary :: testArgs) cmdOutput gomaxprocs
        = Action.runDirect b a) ↔ tests.length ≤ 20) ∧
      ((∃ b a g, main makeLimit (prog :: testBinary :: testArgs) cmdOutput gomaxprocs
        = Action.runParallel b a g) ↔ 21 ≤ tests.length) := by
  by_cases hl : tests.length ≤ 20
  · have hm : main makeLimit (prog :: testBinary :: testArgs) cmdOutput gomaxprocs
        = Action.runDirect testBinary testArgs := by
      simp only [main, h, if_pos hl]
    rw [hm]
    refine ⟨⟨fun _ => hl, fun _ => rfl⟩, ⟨?_, fun h => ?_⟩,
      ⟨fun _ => hl, fun _ => ⟨_, _, rfl⟩⟩, ⟨?_, fun h => ?_⟩⟩
    · rintro ⟨groups, _, h⟩
      cases h
    · omega
    · rintro ⟨b, a, g, h⟩
      cases h
    · omega
  · have hl' : 21 ≤ tests.length := by omega
    have hne : tests ≠ [] := by
      intro h0
      rw [h0] at hl'
      simp at hl'
    have hd := divideTests_eq makeLimit tests gomaxprocs hne
    have hm : main makeLimit (prog :: testBinary :: testArgs) cmdOutput gomaxprocs
        = Action.runParallel testBinary testArgs (slicePlan tests gomaxprocs) := by
      simp only [main, h, if_neg hl, hd]
    rw [hm]
    refine ⟨⟨fun h => ?_, fun h => absurd h hl⟩,
      ⟨fun _ => hl', fun _ => ⟨_, hd, rfl⟩⟩,
      ⟨?_, fun h => absurd h hl⟩, ⟨fun _ => hl', fun _ => ⟨_, _, _, rfl⟩⟩⟩
    · cases h
    · rintro ⟨b, a, h⟩
      cases h

theorem main_threshold_witness :
    getTestList (some "TestA\nTestB\n") = (["TestA", "TestB"], none) ∧
      main 1024 ["paratest", "pkg.test", "-test.v"] (some "TestA\nTestB\n") 4
        = Action.runDirect "pkg.test" ["-test.v"] :=
  ⟨by decide,
    (main_threshold 1024 "paratest" "pkg.test" ["-test.v"] (some "TestA\nTestB\n") 4
      ["TestA", "TestB"] (by decide)).1.2 (by decide)⟩

/-- C8 (as stated) fails on a line with leading white space: the line ` TestA` does
not begin with `Test`, yet it is accepted, and what is returned is not the line
but its trimmed form. -/
theorem getTestList_untrimmed_counterexample :
    (scanLines " TestA\n".data []).1 = [" TestA"] ∧
      HasPrefix " TestA" "Test" = false ∧
      (getTestList (some " TestA\n")).1 = ["TestA"] ∧
      (getTestList (some " TestA\n")).1
        ≠ ((scanLines " TestA\n".data []).1).filter (fun l => HasPrefix l "Test") := by
  decide

/-- C8 (amended). Listing parse: a scanned line is accepted exactly when its trimmed
form begins with `Test`; the returned sequence consists of the trimmed forms of
the accepted lines, in output order, with duplicates kept; and every returned
identifier is non-empty and begins with `Test`. -/
theorem getTestList_parse (output : String) :
    (getTestList (some output)).1
        = (((scanLines output.data []).1).map TrimSpace).filter
            (fun l => HasPrefix l "Test") ∧
      ∀ t ∈ (getTestList (some output)).1, t ≠ "" ∧ HasPrefix t "Test" = true := by
  have h : (getTestList (some output)).1
      = (((scanLines output.data []).1).map TrimSpace).filter
          (fun l => HasPrefix l "Test") := by
    simp only [getTestList, scanLoop_eq, List.nil_append]
  refine ⟨h, ?_⟩
  intro t ht
  rw [h] at ht
  have hp := (List.mem_filter.1 ht).2
  exact ⟨hasPrefix_ne_empty t hp, hp⟩

/-! ## Pattern lemmas -/

theorem join_data (group : List String) :
    (Join group "|").data = List.intercalate ['|'] (group.map String.data) := by
  induction group with
  | nil => rfl
  | cons a rest ih =>
    cases rest with
    | nil => simp [Join, List.intercalate]
    | cons b rest =>
      rw [Join, String.data_append, String.data_append, ih]
      simp [List.intercalate, List.intersperse]

theorem pattern_data (group : List String) :
    (pattern group).data
      = '^' :: '(' :: (List.intercalate ['|'] (group.map String.data) ++ [')', '$']) := by
  unfold pattern
  rw [String.data_append, String.data_append, join_data]
  rfl

theorem parseLoop_cons (c : Char) (cs : List Char) (stack : List Frame) (f : Frame) :
    parseLoop (c :: cs) stack f
      = if c = '(' then
          parseLoop cs (f :: stack) ⟨[], Regex.empty⟩
        else if c = ')' then
          match stack with
          | [] => none
          | p :: ps => parseLoop cs ps ⟨p.alts, Regex.cat p.cur (Regex.group (closeFrame f))⟩
        else if c = '|' then
          parseLoop cs stack ⟨f.alts ++ [f.cur], Regex.empty⟩
        else if c = '^' then
          parseLoop cs stack ⟨f.alts, Regex.cat f.cur Regex.bol⟩
        else if c = '$' then
          parseLoop cs stack ⟨f.alts, Regex.cat f.cur Regex.eol⟩
        else if isMeta c then
          none
        else
          parseLoop cs stack ⟨f.alts, Regex.cat f.cur (Regex.lit c)⟩ := by
  cases stack <;> rfl

theorem parseLoop_lit (c : Char) (cs : List Char) (stack : List Frame) (f : Frame)
    (h : isMeta c = false) :
    parseLoop (c :: cs) stack f
      = parseLoop cs stack ⟨f.alts, Regex.cat f.cur (Regex.lit c)⟩ := by
  have h1 : c ≠ '(' := by rintro rfl; revert h; decide
  have h2 : c ≠ ')' := by rintro rfl; revert h; decide
  have h3 : c ≠ '|' := by rintro rfl; revert h; decide
  have h4 : c ≠ '^' := by rintro rfl; revert h; decide
  have h5 : c ≠ '$' := by rintro rfl; revert h; decide
  rw [parseLoop_cons, if_neg h1, if_neg h2, if_neg h3, if_neg h4, if_neg h5, h]
  simp

theorem parseLoop_lits (cs rest : List Char) (stack : List Frame) :
    ∀ f : Frame, (∀ c ∈ cs, isMeta c = false) →
      parseLoop (cs ++ rest) stack f = parseLoop rest stack ⟨f.alts, litSeq f.cur cs⟩ := by
  induction cs with
  | nil => intro f _; rfl
  | cons c cs ih =>
    intro f h
    rw [List.cons_append, parseLoop_lit c _ stack f (h c (List.mem_cons_self _ _)),
      ih _ (fun d hd => h d (List.mem_cons_of_mem _ hd))]
    rfl

theorem parseLoop_bar (cs : List Char) (stack : List Frame) (f : Frame) :
    parseLoop ('|' :: cs) stack f = parseLoop cs stack ⟨f.alts ++ [f.cur], Regex.empty⟩ := by
  rw [parseLoop_cons, if_neg (by decide), if_neg (by decide), if_pos rfl]

theorem parseLoop_join (rest : List Char) (stack : List Frame) :
    ∀ (ids : List (List Char)) (f : Frame),
      (∀ a ∈ ids, ∀ c ∈ a, isMeta c = false) →
      parseLoop (List.intercalate ['|'] ids ++ rest) stack f
        = parseLoop rest stack (joinFrame ids f) := by
  intro ids
  induction ids with
  | nil => intro f _; rfl
  | cons a ids ih =>
    intro f h
    cases ids with
    | nil =>
      have : List.intercalate ['|'] [a] = a := by simp [List.intercalate]
      rw [this, parseLoop_lits a rest stack f (h a (List.mem_cons_self _ _))]
      rfl
    | cons b ids =>
      have : List.intercalate ['|'] (a :: b :: ids) ++ rest
          = a ++ ('|' :: (List.intercalate ['|'] (b :: ids) ++ rest)) := by
        simp [List.intercalate, List.intersperse]
      rw [this, parseLoop_lits a _ stack f (h a (List.mem_cons_self _ _)), parseLoop_bar,
        ih _ (fun x hx => h x (List.mem_cons_of_mem _ hx))]
      rfl

/-- The pattern of a group of metacharacter-free identifiers compiles to the
anchored group of the alternatives. -/
theorem regexpCompile_pattern (group : List String)
    (hlit : ∀ id ∈ group, ∀ c ∈ id.data, isMeta c = false) :
    regexpCompile (pattern group)
      = some (Regex.cat (Regex.cat (Regex.cat Regex.empty Regex.bol)
          (Regex.group (closeFrame (joinFrame (group.map String.data) ⟨[], Regex.empty⟩))))
          Regex.eol) := by
  unfold regexpCompile
  rw [pattern_data]
  have h : ∀ a ∈ group.map String.data, ∀ c ∈ a, isMeta c = false := by
    intro a ha
    obtain ⟨id, hid, rfl⟩ := List.mem_map.1 ha
    exact hlit id hid
  rw [parseLoop_cons, if_neg (by decide), if_neg (by decide), if_neg (by decide), if_pos rfl,
    parseLoop_cons, if_pos rfl, parseLoop_join _ _ _ _ h]
  rfl


theorem mem_matchEnds_cat (r t : Regex) (s : List Char) (i j : Nat) :
    j ∈ matchEnds (Regex.cat r t) s i ↔ ∃ m, m ∈ matchEnds r s i ∧ j ∈ matchEnds t s m := by
  simp [matchEnds, List.mem_flatMap]

theorem mem_matchEnds_lit (c : Char) (s : List Char) (i j : Nat) :
    j ∈ matchEnds (Regex.lit c) s i ↔ s[i]? = some c ∧ j = i + 1 := by
  unfold matchEnds
  split <;> simp_all

theorem drop_eq_cons_iff (s : List Char) (m : Nat) (c : Char) (x : List Char) :
    s.drop m = c :: x ↔ s[m]? = some c ∧ s.drop (m + 1) = x := by
  constructor
  · intro h
    have h1 : (s.drop m)[0]? = some c := by rw [h]; simp
    have h2 : (s.drop m).drop 1 = x := by rw [h]; rfl
    rw [List.getElem?_drop] at h1
    rw [List.drop_drop] at h2
    exact ⟨by simpa using h1, by simpa [Nat.add_comm] using h2⟩
  · rintro ⟨h1, h2⟩
    obtain ⟨hlt, he⟩ := List.getElem?_eq_some_iff.1 h1
    rw [List.drop_eq_getElem_cons hlt, he, h2]

theorem mem_matchEnds_litSeq (s : List Char) (cs : List Char) :
    ∀ (r : Regex) (i j : Nat),
      j ∈ matchEnds (litSeq r cs) s i
        ↔ ∃ m, m ∈ matchEnds r s i ∧ (∃ t, s.drop m = cs ++ t) ∧ j = m + cs.length := by
  induction cs with
  | nil =>
    intro r i j
    simp [litSeq]
  | cons c cs ih =>
    intro r i j
    have hs : litSeq r (c :: cs) = litSeq (Regex.cat r (Regex.lit c)) cs := rfl
    rw [hs, ih]
    constructor
    · rintro ⟨m', hm', ⟨t, ht⟩, hj⟩
      obtain ⟨m, hm, hl⟩ := (mem_matchEnds_cat _ _ _ _ _).1 hm'
      obtain ⟨hc, rfl⟩ := (mem_matchEnds_lit _ _ _ _).1 hl
      refine ⟨m, hm, ⟨t, ?_⟩, ?_⟩
      · rw [List.cons_append, drop_eq_cons_iff]
        exact ⟨hc, ht⟩
      · simp only [List.length_cons]
        omega
    · rintro ⟨m, hm, ⟨t, ht⟩, hj⟩
      rw [List.cons_append, drop_eq_cons_iff] at ht
      refine ⟨m + 1, ?_, ⟨t, ht.2⟩, ?_⟩
      · exact (mem_matchEnds_cat _ _ _ _ _).2
          ⟨m, hm, (mem_matchEnds_lit _ _ _ _).2 ⟨ht.1, rfl⟩⟩
      · simp only [List.length_cons] at hj
        omega

theorem mem_matchEnds_closeFrame (s : List Char) (i j : Nat) (cur : Regex) :
    ∀ alts : List Regex,
      j ∈ matchEnds (closeFrame ⟨alts, cur⟩) s i
        ↔ (∃ a ∈ alts, j ∈ matchEnds a s i) ∨ j ∈ matchEnds cur s i := by
  intro alts
  induction alts with
  | nil => simp [closeFrame]
  | cons a alts ih =>
    have hc : closeFrame ⟨a :: alts, cur⟩ = Regex.alt a (closeFrame ⟨alts, cur⟩) := rfl
    rw [hc, matchEnds, List.mem_append, ih]
    simp only [List.mem_cons, exists_eq_or_imp]
    exact or_assoc.symm

theorem mem_matchEnds_joinFrame (s : List Char) (i j : Nat) :
    ∀ (ids : List (List Char)) (a : List Char) (f : Frame),
      j ∈ matchEnds (closeFrame (joinFrame (a :: ids) f)) s i
        ↔ (∃ x ∈ f.alts, j ∈ matchEnds x s i) ∨ j ∈ matchEnds (litSeq f.cur a) s i ∨
            ∃ b ∈ ids, j ∈ matchEnds (litSeq Regex.empty b) s i := by
  intro ids
  induction ids with
  | nil =>
    intro a f
    have : joinFrame [a] f = ⟨f.alts, litSeq f.cur a⟩ := rfl
    rw [this, mem_matchEnds_closeFrame]
    simp
  | cons b ids ih =>
    intro a f
    have : joinFrame (a :: b :: ids) f
        = joinFrame (b :: ids) ⟨f.alts ++ [litSeq f.cur a], Regex.empty⟩ := rfl
    rw [this, ih]
    constructor
    · rintro (⟨x, hx, h⟩ | h | ⟨c, hc, h⟩)
      · rcases List.mem_append.1 hx with hx | hx
        · exact Or.inl ⟨x, hx, h⟩
        · rw [List.mem_singleton] at hx
          subst hx
          exact Or.inr (Or.inl h)
      · exact Or.inr (Or.inr ⟨b, List.mem_cons_self _ _, h⟩)
      · exact Or.inr (Or.inr ⟨c, List.mem_cons_of_mem _ hc, h⟩)
    · rintro (⟨x, hx, h⟩ | h | ⟨c, hc, h⟩)
      · exact Or.inl ⟨x, List.mem_append_left _ hx, h⟩
      · exact Or.inl ⟨_, List.mem_append_right _ (List.mem_singleton_self _), h⟩
      · rcases List.mem_cons.1 hc with rfl | hc
        · exact Or.inr (Or.inl h)
        · exact Or.inr (Or.inr ⟨c, hc, h⟩)


theorem mem_matchEnds_anchored (g : Regex) (s : List Char) (i j : Nat) :
    j ∈ matchEnds (Regex.cat (Regex.cat (Regex.cat Regex.empty Regex.bol) (Regex.group g))
        Regex.eol) s i
      ↔ i = 0 ∧ j = s.length ∧ s.length ∈ matchEnds g s 0 := by
  simp only [mem_matchEnds_cat]
  constructor
  · rintro ⟨m2, ⟨m1, ⟨m0, h0, hb⟩, hg⟩, he⟩
    simp only [matchEnds, List.mem_singleton] at h0
    subst h0
    simp only [matchEnds] at hb he hg
    split at hb
    · next hi =>
      subst hi
      simp only [List.mem_singleton] at hb
      subst hb
      split at he
      · next hm =>
        simp only [List.mem_singleton] at he
        subst he
        subst hm
        exact ⟨rfl, rfl, hg⟩
      · simp at he
    · simp at hb
  · rintro ⟨rfl, rfl, hg⟩
    exact ⟨s.length, ⟨0, ⟨0, by simp [matchEnds], by simp [matchEnds]⟩,
      by simpa [matchEnds] using hg⟩, by simp [matchEnds]⟩

theorem mem_matchEnds_alternatives (s : List Char) (m : Nat) (a : List Char)
    (ids : List (List Char)) :
    m ∈ matchEnds (closeFrame (joinFrame (a :: ids) ⟨[], Regex.empty⟩)) s 0
      ↔ ∃ b ∈ a :: ids, (∃ t, s = b ++ t) ∧ m = b.length := by
  have hl : ∀ b : List Char, m ∈ matchEnds (litSeq Regex.empty b) s 0
      ↔ (∃ t, s = b ++ t) ∧ m = b.length := by
    intro b
    rw [mem_matchEnds_litSeq]
    simp [matchEnds]
  rw [mem_matchEnds_joinFrame]
  simp only [List.not_mem_nil, false_and, exists_false, false_or, List.mem_cons,
    exists_eq_or_imp, hl]

theorem regexpMatch_iff (r : Regex) (s : List Char) :
    regexpMatch r s = true ↔ ∃ i j, i ≤ s.length ∧ j ∈ matchEnds r s i := by
  unfold regexpMatch
  simp only [List.any_eq_true, List.mem_range, Bool.not_eq_true', List.isEmpty_eq_false]
  constructor
  · rintro ⟨i, hi, hne⟩
    obtain ⟨j, hj⟩ := List.exists_mem_of_ne_nil _ hne
    exact ⟨i, j, by omega, hj⟩
  · rintro ⟨i, j, hi, hj⟩
    exact ⟨i, by omega, List.ne_nil_of_mem hj⟩

theorem regexpMatch_anchored (s : List Char) (a : List Char) (ids : List (List Char)) :
    regexpMatch (Regex.cat (Regex.cat (Regex.cat Regex.empty Regex.bol)
        (Regex.group (closeFrame (joinFrame (a :: ids) ⟨[], Regex.empty⟩)))) Regex.eol) s = true
      ↔ s ∈ a :: ids := by
  rw [regexpMatch_iff]
  simp only [mem_matchEnds_anchored, mem_matchEnds_alternatives]
  constructor
  · rintro ⟨i, j, _, _, _, b, hb, ⟨t, ht⟩, hlen⟩
    have : t = [] := by
      have := congrArg List.length ht
      simp only [List.length_append] at this
      exact List.length_eq_zero.1 (by omega)
    subst this
    rw [List.append_nil] at ht
    rw [ht]
    exact hb
  · intro h
    exact ⟨0, s.length, Nat.zero_le _, rfl, rfl, s, h, ⟨[], by simp⟩, rfl⟩

/-- A name matches the pattern of a non-empty group of metacharacter-free
identifiers exactly when it is one of the identifiers. -/
theorem matchString_pattern (group : List String) (hne : group ≠ [])
    (hlit : ∀ id ∈ group, ∀ c ∈ id.data, isMeta c = false) (name : String) :
    MatchString (pattern group) name = some (decide (name ∈ group)) := by
  unfold MatchString
  rw [regexpCompile_pattern group hlit, Option.map_some']
  congr 1
  cases group with
  | nil => exact absurd rfl hne
  | cons a rest =>
    rw [Bool.eq_iff_iff, List.map_cons, regexpMatch_anchored, decide_eq_true_iff,
      ← List.map_cons]
    constructor
    · intro h
      obtain ⟨id, hid, he⟩ := List.mem_map.1 h
      have : id = name := String.ext he
      rw [← this]
      exact hid
    · intro h
      exact List.mem_map_of_mem _ h

/-- C9. Anchored filter of a group: for every non-empty group, whatever its
identifiers contain, the argument after `-test.run` is the string
`"^(" ++ (identifiers joined by "|") ++ ")$"` with the identifiers unescaped;
and when the identifiers contain no regular-expression metacharacter, a test
name matches this filter if and only if it equals one of the group's
identifiers. -/
theorem pattern_anchored (group : List String) (testArgs : List String)
    (hne : group ≠ []) :
    groupArgs group testArgs = "-test.run" :: pattern group :: testArgs ∧
      (pattern group).data
        = '^' :: '(' :: (List.intercalate ['|'] (group.map String.data) ++ [')', '$']) ∧
      ((∀ id ∈ group, ∀ c ∈ id.data, isMeta c = false) →
        ∀ name : String, MatchString (pattern group) name = some (decide (name ∈ group))) :=
  ⟨rfl, pattern_data group, fun hlit name => matchString_pattern group hne hlit name⟩

theorem pattern_anchored_witness :
    (["Test.A", "TestB"] ≠ [] ∧
      (pattern ["Test.A", "TestB"]).data = "^(Test.A|TestB)$".data) ∧
      (∀ id ∈ ["TestA", "TestAB"], ∀ c ∈ id.data, isMeta c = false) ∧
      (pattern ["TestA", "TestAB"]).data = "^(TestA|TestAB)$".data ∧
      MatchString (pattern ["TestA", "TestAB"]) "TestA" = some true ∧
      MatchString (pattern ["TestA", "TestAB"]) "Test" = some false ∧
      MatchString (pattern ["TestA", "TestAB"]) "TestABC" = some false :=
  have h := pattern_anchored ["TestA", "TestAB"] [] (by decide)
  ⟨⟨by decide, (pattern_anchored ["Test.A", "TestB"] [] (by decide)).2.1⟩,
    by decide, h.2.1, h.2.2 (by decide) "TestA", h.2.2 (by decide) "Test",
    h.2.2 (by decide) "TestABC"⟩

/-! ## Disjointness of the groups and of their filters -/

set_option maxRecDepth 20000 in
/-- C4 (as stated) fails in two ways. When the listing repeats a name,
`getTestList` keeps both occurrences of `Test1`, and with `n = 2` each of the
two groups holds one. When a name contains the metacharacter `|`, the groups
share no identifier, yet the name `Test21` is selected by the filters of both
groups. -/
theorem divideTests_duplicate_counterexample :
    ((getTestList (some listingWithDuplicate)).2 = none ∧
      divideTests 1024 (getTestList (some listingWithDuplicate)).1 2
        = some [["Test1", "Test2", "Test3", "Test4", "Test5", "Test6", "Test7", "Test8",
            "Test9", "Test10"],
          ["Test11", "Test12", "Test13", "Test14", "Test15", "Test16", "Test17",
            "Test18", "Test19", "Test20", "Test1"]] ∧
      "Test1" ∈ ["Test1", "Test2", "Test3", "Test4", "Test5", "Test6", "Test7", "Test8",
            "Test9", "Test10"] ∧
      "Test1" ∈ ["Test11", "Test12", "Test13", "Test14", "Test15", "Test16", "Test17",
            "Test18", "Test19", "Test20", "Test1"]) ∧
    ((getTestList (some listingWithBar)).2 = none ∧
      (getTestList (some listingWithBar)).1.Nodup ∧
      divideTests 1024 (getTestList (some listingWithBar)).1 2
        = some [["Test1|Test21", "Test2", "Test3", "Test4", "Test5", "Test6", "Test7",
            "Test8", "Test9", "Test10"],
          ["Test11", "Test12", "Test13", "Test14", "Test15", "Test16", "Test17",
            "Test18", "Test19", "Test20", "Test21"]] ∧
      MatchString (pattern ["Test1|Test21", "Test2", "Test3", "Test4", "Test5", "Test6",
            "Test7", "Test8", "Test9", "Test10"]) "Test21" = some true ∧
      MatchString (pattern ["Test11", "Test12", "Test13", "Test14", "Test15", "Test16",
            "Test17", "Test18", "Test19", "Test20", "Test21"]) "Test21" = some true) :=
  ⟨⟨by decide, by decide, by decide, by decide⟩,
    ⟨by decide, by decide, by decide, by decide, by decide⟩⟩

/-- C4 (amended). Group disjointness: for every duplicate-free sequence `tests` and
every `n ≥ 1` for which `divideTests` returns a plan (it always does when
`tests` is non-empty), two different groups of the plan share no test
identifier; and when in addition no identifier contains a regular-expression
metacharacter, no test name is selected by the filters of two different
non-empty groups. -/
theorem divideTests_disjoint_of_nodup (makeLimit : Nat) (tests : List String) (n : Int)
    (hnd : tests.Nodup) (_hn : 1 ≤ n) (hmake : tests = [] → n ≤ (makeLimit : Int)) :
    ∃ groups, divideTests makeLimit tests n = some groups ∧
      ∀ (i j : Nat) (gi gj : List String), i ≠ j →
        groups[i]? = some gi → groups[j]? = some gj →
        (∀ t, t ∈ gi → t ∉ gj) ∧
        ((∀ id ∈ tests, ∀ c ∈ id.data, isMeta c = false) → gi ≠ [] → gj ≠ [] →
          ∀ name : String, ¬ (MatchString (pattern gi) name = some true ∧
            MatchString (pattern gj) name = some true)) := by
  have hex : ∃ groups, divideTests makeLimit tests n = some groups := by
    by_cases ht : tests = []
    · subst ht
      have := hmake rfl
      rw [divideTests_empty, if_pos (by split <;> omega)]
      exact ⟨_, rfl⟩
    · exact ⟨_, divideTests_eq makeLimit tests n ht⟩
  obtain ⟨groups, hg⟩ := hex
  refine ⟨groups, hg, ?_⟩
  intro i j gi gj hij hi hj
  have hdis := divideTests_groups_disjoint makeLimit tests n hnd groups hg i j gi gj hij hi hj
  refine ⟨hdis, ?_⟩
  intro hlit hgi hgj name hboth
  have hsi := divideTests_group_subset makeLimit tests n groups hg gi (List.getElem?_mem hi)
  have hsj := divideTests_group_subset makeLimit tests n groups hg gj (List.getElem?_mem hj)
  have hmi := matchString_pattern gi hgi (fun id hid => hlit id (hsi id hid)) name
  have hmj := matchString_pattern gj hgj (fun id hid => hlit id (hsj id hid)) name
  rw [hboth.1] at hmi
  rw [hboth.2] at hmj
  have h1 : name ∈ gi := of_decide_eq_true (Option.some.inj hmi).symm
  have h2 : name ∈ gj := of_decide_eq_true (Option.some.inj hmj).symm
  exact hdis name h1 h2

theorem divideTests_disjoint_of_nodup_witness :
    ["TestA", "TestB", "TestC"].Nodup ∧ (1 : Int) ≤ 2 ∧
      divideTests 1024 ["TestA", "TestB", "TestC"] 2 = some [["TestA"], ["TestB", "TestC"]] ∧
      ∃ groups, divideTests 1024 ["TestA", "TestB", "TestC"] 2 = some groups ∧
        ∀ (i j : Nat) (gi gj : List String), i ≠ j →
          groups[i]? = some gi → groups[j]? = some gj →
          (∀ t, t ∈ gi → t ∉ gj) ∧
          ((∀ id ∈ ["TestA", "TestB", "TestC"], ∀ c ∈ id.data, isMeta c = false) →
            gi ≠ [] → gj ≠ [] →
            ∀ name : String, ¬ (MatchString (pattern gi) name = some true ∧
              MatchString (pattern gj) name = some true)) :=
  ⟨by decide, by decide, by decide,
    divideTests_disjoint_of_nodup 1024 ["TestA", "TestB", "TestC"] 2 (by decide)
      (by decide) (by decide)⟩

end Paratest
